import Mathlib

/-!
# Verification of the environment-configuration accessor and value sanitizer

Shallow embedding of `src/config/env.config.ts` (class `Env`) and of the
recursive trimming utility (class `Utils`) of the
`nestjs-firebase-functions-template` repository, together with proofs of the
specification's claims about them.

JavaScript strings are modelled as Lean `String`; `string | undefined` as
`Option String`; the JavaScript number produced by `Number.parseInt` as a
`JsNumber` (NaN, ±Infinity, or a finite integer).  `parseInt` never
produces a fractional value, but it does produce an IEEE-754 binary64
double: digit strings of value ≥ 2^53 are rounded to 53 significant bits
(ties to even) and values past the double range become `Infinity`, which
`Number.isFinite` rejects.  That rounding is embedded exactly, with
integer arithmetic (`roundToDouble`).  The ECMAScript notions of
whitespace, digits, `trim`, `split(',')`, `toLowerCase` and
`parseInt(·, 10)` are embedded below.
-/

/-- ECMAScript whitespace (`WhiteSpace` ∪ `LineTerminator`): the character
class skipped by `String.prototype.trim` and by `parseInt` — TAB, LF, VT,
FF, CR, SP, NBSP, the Unicode `Space_Separator` code points (U+1680,
U+2000–U+200A, U+202F, U+205F, U+3000), LS, PS and the BOM U+FEFF. -/
def jsIsWs (c : Char) : Bool :=
  decide (c.toNat = 32 ∨ c.toNat = 9 ∨ c.toNat = 10 ∨ c.toNat = 13 ∨
    c.toNat = 11 ∨ c.toNat = 12 ∨ c.toNat = 0xa0 ∨ c.toNat = 0x1680 ∨
    (0x2000 ≤ c.toNat ∧ c.toNat ≤ 0x200a) ∨ c.toNat = 0x202f ∨
    c.toNat = 0x205f ∨ c.toNat = 0x3000 ∨ c.toNat = 0x2028 ∨
    c.toNat = 0x2029 ∨ c.toNat = 0xfeff)

/-- ECMAScript decimal digit `0`–`9`. -/
def jsIsDigit (c : Char) : Bool :=
  48 ≤ c.toNat && c.toNat ≤ 57

/-- Numeric value of a string of decimal digits (most significant first),
as computed by `parseInt`'s digit accumulation. -/
def digitsToNat (l : List Char) : Nat :=
  l.foldl (fun acc c => acc * 10 + (c.toNat - 48)) 0

/-- `String.prototype.trim` on a character list: remove leading then
trailing ECMAScript whitespace (`List.rdropWhile p l` is
`(l.reverse.dropWhile p).reverse`). -/
def trimChars (l : List Char) : List Char :=
  List.rdropWhile jsIsWs (l.dropWhile jsIsWs)

/-- Embedding of JavaScript `String.prototype.trim`. -/
def trimString (s : String) : String :=
  ⟨trimChars s.data⟩

/-- Embedding of JavaScript `String.prototype.toLowerCase` (the inputs
compared in this code are ASCII, where it agrees with `Char.toLower`). -/
def jsToLower (s : String) : String :=
  ⟨s.data.map Char.toLower⟩

/-- Case-insensitive string comparison, as performed in the source by
lowercasing both sides. -/
def caseInsensitiveEq (a b : String) : Prop :=
  jsToLower a = jsToLower b

/-- Embedding of JavaScript `String.prototype.split(',')` on character
lists: accumulates the current segment and emits it at every comma.
`splitCommaAux [] acc = [acc.reverse]`, so the empty string yields one empty
segment, exactly as in JavaScript. -/
def splitCommaAux : List Char → List Char → List (List Char)
  | [], acc => [acc.reverse]
  | c :: rest, acc =>
    if c = ',' then acc.reverse :: splitCommaAux rest []
    else splitCommaAux rest (c :: acc)

/-- Embedding of JavaScript `raw.split(',')`. -/
def splitComma (s : String) : List String :=
  (splitCommaAux s.data []).map fun l => ⟨l⟩

/-- The JavaScript number values `Number.parseInt` can produce: `NaN`,
`±Infinity`, or a finite value (always a mathematical integer for
`parseInt`, held here exactly). -/
inductive JsNumber where
  | nan
  | posInf
  | negInf
  | finite (n : Int)
deriving DecidableEq

/-- Floor base-2 logarithm driven by a structural fuel argument, so that
it evaluates by kernel reduction (`Nat.log2` is defined by well-founded
recursion and does not). -/
def log2Fuel : Nat → Nat → Nat
  | 0, _ => 0
  | fuel + 1, n => if n < 2 then 0 else log2Fuel fuel (n / 2) + 1

/-- `⌊log₂ n⌋` for every `n < 2^1100`; for larger `n` it returns 1100,
which still sends `roundToDouble` to the overflow branch, as required —
every such value lies far beyond the IEEE-754 double range. -/
def floorLog2 (n : Nat) : Nat :=
  log2Fuel 1100 n

/-- Round a natural number to the nearest IEEE-754 binary64 double
(round-to-nearest, ties to even), in exact integer arithmetic: values
below `2^53` are exact; larger values keep the top 53 significant bits,
rounding the rest (ties to the even significand); `none` when the rounded
value reaches `2^1024` and overflows to `Infinity`. -/
def roundToDouble (n : Nat) : Option Nat :=
  if n < 2 ^ 53 then some n
  else
    let shift := floorLog2 n - 52
    let q := n / 2 ^ shift
    let r := n % 2 ^ shift
    let half := 2 ^ (shift - 1)
    let q' := if half < r ∨ (r = half ∧ q % 2 = 1) then q + 1 else q
    let v := q' * 2 ^ shift
    if v < 2 ^ 1024 then some v else none

/-- After `parseInt`'s whitespace and sign handling: the longest prefix of
decimal digits, `NaN` when it is empty, otherwise its value converted to a
double — exact below `2^53`, rounded above, `±Infinity` past the double
range. -/
def jsParseIntDigits (neg : Bool) (l : List Char) : JsNumber :=
  match l.takeWhile jsIsDigit with
  | [] => .nan
  | ds =>
    match roundToDouble (digitsToNat ds) with
    | some v => .finite (if neg then -(v : Int) else (v : Int))
    | none => if neg then .negInf else .posInf

/-- Embedding of `Number.parseInt(value, 10)`: skip leading whitespace, read
an optional sign, then the longest prefix of decimal digits; `NaN` when no
digit is found.  Trailing non-digit characters are ignored, which is why
strings such as `"12.5"` or `"8080abc"` *do* parse; the digit value is
returned as a double (rounded at `2^53`, `Infinity` past `~1.8e308`). -/
def jsParseInt (s : String) : JsNumber :=
  match s.data.dropWhile jsIsWs with
  | [] => .nan
  | c :: t =>
    if c = '-' then jsParseIntDigits true t
    else if c = '+' then jsParseIntDigits false t
    else jsParseIntDigits false (c :: t)

/-- The process environment restricted to the variables the `Env` class
reads.  Each entry is `string | undefined`. -/
structure EnvState where
  NODE_ENV : Option String
  SKIP_AUTH : Option String
  CORS_ORIGIN : Option String
  PORT : Option String

/-- The source's `CorsOrigin` type: `'*' | string[]`. -/
inductive CorsOrigin where
  | wildcard
  | list (origins : List String)
deriving DecidableEq

namespace Env

/-- `Env.parseBoolean`: `undefined` gives the fallback, otherwise the value
is trimmed, lowercased and compared with the literal `'true'`. -/
def parseBoolean (value : Option String) (fallback : Bool) : Bool :=
  match value with
  | none => fallback
  | some s => jsToLower (trimString s) == "true"

/-- `Env.parseInt`: `undefined` or whitespace-only input gives the fallback;
otherwise `Number.parseInt(value, 10)` is taken when `Number.isFinite` of
it holds (ruling out `NaN` and `±Infinity`) and it is strictly positive,
and the fallback otherwise. -/
def parseIntJs (value : Option String) (fallback : Int) : Int :=
  match value with
  | none => fallback
  | some s =>
    if trimString s = "" then fallback
    else
      match jsParseInt s with
      | .finite parsed => if parsed > 0 then parsed else fallback
      | _ => fallback

/-- `Env.nodeEnv`: the raw `NODE_ENV` value. -/
def nodeEnv (env : EnvState) : Option String :=
  env.NODE_ENV

/-- `Env.skipAuth`: `parseBoolean(process.env.SKIP_AUTH, false)`. -/
def skipAuth (env : EnvState) : Bool :=
  parseBoolean env.SKIP_AUTH false

/-- `Env.corsOrigin`: `undefined` or the empty string (both falsy) give the
default list; a value trimming to `"*"` gives the wildcard; otherwise the
value is split on commas, each segment trimmed, empty segments dropped, and
the default list returned when nothing remains. -/
def corsOrigin (env : EnvState) : CorsOrigin :=
  match env.CORS_ORIGIN with
  | none => .list ["http://localhost:3000"]
  | some raw =>
    if raw = "" then .list ["http://localhost:3000"]
    else if trimString raw = "*" then .wildcard
    else
      let items := ((splitComma raw).map trimString).filter
        fun value => value.length > 0
      if items.length > 0 then .list items else .list ["http://localhost:3000"]

/-- `Env.port`: `parseInt(process.env.PORT, 5001)`. -/
def port (env : EnvState) : Int :=
  parseIntJs env.PORT 5001

end Env

/-- An acyclic JavaScript value as handled by `Utils.trim`: the recursive
union of strings, numbers, booleans, `null`, `undefined`, arrays and
string-keyed objects (`Object.entries` order kept as a list). -/
inductive Value where
  | str (s : String)
  | num (n : Int)
  | bool (b : Bool)
  | null
  | undefined
  | arr (elems : List Value)
  | obj (fields : List (String × Value))

/-- JavaScript `typeof value === 'object'`: true exactly for `null`, arrays
and plain objects among the values of `Value`. -/
def typeofIsObject : Value → Bool
  | .null => true
  | .arr _ => true
  | .obj _ => true
  | _ => false

/-- JavaScript `value === null`. -/
def jsIsNull : Value → Bool
  | .null => true
  | _ => false

/-- JavaScript `Array.isArray(value)`. -/
def jsIsArray : Value → Bool
  | .arr _ => true
  | _ => false

/-- `Object.keys(value).length` for the values on which the source calls it
(arrays and objects; it is guarded by the `null` check). -/
def jsObjectKeysLength : Value → Nat
  | .obj fs => fs.length
  | .arr xs => xs.length
  | _ => 0

namespace Utils

/-- `Utils.isObject`: checks `typeof value === 'object'`, then rejects
`null` unless `acceptNull`, arrays unless `acceptArray`, and empty objects
when `acceptEmpty` is explicitly false (its default is true). -/
def isObject (value : Value) (acceptNull acceptArray acceptEmpty : Bool) : Bool :=
  if typeofIsObject value = false then false
  else if acceptNull = false && jsIsNull value then false
  else if acceptArray = false && jsIsArray value then false
  else if acceptEmpty = false && jsObjectKeysLength value == 0 then false
  else true

mutual

/-- `Utils.trim`: a string is trimmed; an array is mapped recursively; a
value passing `isObject` with the default parameters (any non-null,
non-array object, empty ones included — see `isObject_default_iff_obj`) has
its entries' values trimmed recursively; every other value (number,
boolean, null, undefined) is returned unchanged. -/
def trim : Value → Value
  | .str s => .str (trimString s)
  | .arr xs => .arr (trimElems xs)
  | .obj fs => .obj (trimFields fs)
  | .num n => .num n
  | .bool b => .bool b
  | .null => .null
  | .undefined => .undefined

/-- `value.map((item) => this.trim(item))` on an array's elements. -/
def trimElems : List Value → List Value
  | [] => []
  | v :: rest => trim v :: trimElems rest

/-- The `for (const [key, val] of Object.entries(value))` loop: rebuilds
the entry list with each value trimmed. -/
def trimFields : List (String × Value) → List (String × Value)
  | [] => []
  | (k, v) :: rest => (k, trim v) :: trimFields rest

end

end Utils

mutual

/-- Reference transform following the specification's sanitizer algorithm
step by step: (1) strings lose leading and trailing whitespace; (2)
sequences map the recursive sanitize over their elements in order; (3)
non-null mappings (empty included) keep their key set and sanitize each
value; (4) anything else is returned unchanged.  `Utils.trim` is proved
equal to it. -/
def sanitizeSpec : Value → Value
  | .str s => .str (trimString s)
  | .arr xs => .arr (sanitizeSpecElems xs)
  | .obj fs => .obj (sanitizeSpecFields fs)
  | other => other

/-- Step (2) of the spec's algorithm, elementwise on a sequence. -/
def sanitizeSpecElems : List Value → List Value
  | [] => []
  | v :: rest => sanitizeSpec v :: sanitizeSpecElems rest

/-- Step (3) of the spec's algorithm, on a mapping's entries. -/
def sanitizeSpecFields : List (String × Value) → List (String × Value)
  | [] => []
  | (k, v) :: rest => (k, sanitizeSpec v) :: sanitizeSpecFields rest

end

/-- The shape of a value: everything except the contents of string leaves
(container types, sequence lengths, key sets and order, and all non-string
leaf values). -/
inductive Shape where
  | strLeaf
  | numLeaf (n : Int)
  | boolLeaf (b : Bool)
  | nullLeaf
  | undefinedLeaf
  | arrNode (elems : List Shape)
  | objNode (fields : List (String × Shape))

mutual

/-- Erase string contents, keeping everything else. -/
def shapeOf : Value → Shape
  | .str _ => .strLeaf
  | .num n => .numLeaf n
  | .bool b => .boolLeaf b
  | .null => .nullLeaf
  | .undefined => .undefinedLeaf
  | .arr xs => .arrNode (shapeOfElems xs)
  | .obj fs => .objNode (shapeOfFields fs)

/-- `shapeOf` mapped over a sequence. -/
def shapeOfElems : List Value → List Shape
  | [] => []
  | v :: rest => shapeOf v :: shapeOfElems rest

/-- `shapeOf` mapped over a mapping's entries, keeping the keys. -/
def shapeOfFields : List (String × Value) → List (String × Shape)
  | [] => []
  | (k, v) :: rest => (k, shapeOf v) :: shapeOfFields rest

end

/-- The list the specification describes for a set, non-wildcard origins
variable: split on commas, trim each segment, discard the empty ones. -/
def corsSpecItems (raw : String) : List String :=
  ((splitComma raw).map trimString).filter fun v => v ≠ ""

/-- A port string whose 310-digit prefix (`1` followed by 309 zeros, value
`10^309`) overflows the double range: `Number.parseInt` gives `Infinity`,
`Number.isFinite` fails and `Env.port` falls back to the default. -/
def bigPortInput : String :=
  ⟨('1' :: List.replicate 309 '0') ++ ['a', 'b', 'c']⟩

/-- Structural induction for `Value` with list-quantified hypotheses for
the nested containers. -/
theorem Value.inductionOn (motive : Value → Prop)
    (hstr : ∀ s, motive (.str s))
    (hnum : ∀ n, motive (.num n))
    (hbool : ∀ b, motive (.bool b))
    (hnull : motive .null)
    (hundefined : motive .undefined)
    (harr : ∀ xs, (∀ x ∈ xs, motive x) → motive (.arr xs))
    (hobj : ∀ fs, (∀ kv ∈ fs, motive kv.2) → motive (.obj fs)) :
    ∀ v, motive v
  | .str s => hstr s
  | .num n => hnum n
  | .bool b => hbool b
  | .null => hnull
  | .undefined => hundefined
  | .arr xs => harr xs fun x hx =>
      Value.inductionOn motive hstr hnum hbool hnull hundefined harr hobj x
  | .obj fs => hobj fs fun kv hkv =>
      Value.inductionOn motive hstr hnum hbool hnull hundefined harr hobj kv.2
decreasing_by
  · simp only [Value.arr.sizeOf_spec]
    have := List.sizeOf_lt_of_mem hx
    omega
  · simp only [Value.obj.sizeOf_spec]
    have h1 := List.sizeOf_lt_of_mem hkv
    obtain ⟨k, v⟩ := kv
    simp only [Prod.mk.sizeOf_spec] at h1 ⊢
    omega

/-- The `isObject` test with `trim`'s (default) parameters succeeds exactly
on object values, empty ones included: the branch structure of `Utils.trim`
above is the source's dispatch order. -/
theorem isObject_default_iff_obj (v : Value) :
    Utils.isObject v false false true = true ↔ ∃ fs, v = .obj fs := by
  cases v <;> simp [Utils.isObject, typeofIsObject, jsIsNull, jsIsArray]

theorem trimElems_eq_map (xs : List Value) :
    Utils.trimElems xs = xs.map Utils.trim := by
  induction xs with
  | nil => simp [Utils.trimElems]
  | cons v rest ih => simp [Utils.trimElems, ih]

theorem trimFields_eq_map (fs : List (String × Value)) :
    Utils.trimFields fs = fs.map fun kv => (kv.1, Utils.trim kv.2) := by
  induction fs with
  | nil => simp [Utils.trimFields]
  | cons kv rest ih =>
    obtain ⟨k, v⟩ := kv
    simp [Utils.trimFields, ih]

theorem sanitizeSpecElems_eq_map (xs : List Value) :
    sanitizeSpecElems xs = xs.map sanitizeSpec := by
  induction xs with
  | nil => simp [sanitizeSpecElems]
  | cons v rest ih => simp [sanitizeSpecElems, ih]

theorem sanitizeSpecFields_eq_map (fs : List (String × Value)) :
    sanitizeSpecFields fs = fs.map fun kv => (kv.1, sanitizeSpec kv.2) := by
  induction fs with
  | nil => simp [sanitizeSpecFields]
  | cons kv rest ih =>
    obtain ⟨k, v⟩ := kv
    simp [sanitizeSpecFields, ih]

theorem shapeOfElems_eq_map (xs : List Value) :
    shapeOfElems xs = xs.map shapeOf := by
  induction xs with
  | nil => simp [shapeOfElems]
  | cons v rest ih => simp [shapeOfElems, ih]

theorem shapeOfFields_eq_map (fs : List (String × Value)) :
    shapeOfFields fs = fs.map fun kv => (kv.1, shapeOf kv.2) := by
  induction fs with
  | nil => simp [shapeOfFields]
  | cons kv rest ih =>
    obtain ⟨k, v⟩ := kv
    simp [shapeOfFields, ih]

theorem dropWhile_eq_self_of_prefixed {p : Char → Bool} {l m : List Char}
    (hpre : m <+: l) (hl : l.dropWhile p = l) : m.dropWhile p = m := by
  rw [List.dropWhile_eq_self_iff] at hl ⊢
  intro hm
  have hlen : 0 < l.length := lt_of_lt_of_le hm hpre.length_le
  have hget := hpre.getElem (by simpa using hm)
  simp only [List.get_eq_getElem]
  rw [hget]
  exact hl hlen

theorem trimChars_idem (l : List Char) : trimChars (trimChars l) = trimChars l := by
  unfold trimChars
  have h1 : (l.dropWhile jsIsWs).dropWhile jsIsWs = l.dropWhile jsIsWs :=
    List.dropWhile_idempotent _ _
  have h2 : (List.rdropWhile jsIsWs (l.dropWhile jsIsWs)).dropWhile jsIsWs
      = List.rdropWhile jsIsWs (l.dropWhile jsIsWs) :=
    dropWhile_eq_self_of_prefixed ( List.rdropWhile_prefix _ _) h1
  rw [h2, List.rdropWhile_idempotent]

theorem trimChars_eq_nil_iff (l : List Char) :
    trimChars l = [] ↔ l.dropWhile jsIsWs = [] := by
  unfold trimChars
  constructor
  · intro h
    by_contra hne
    rw [List.rdropWhile_eq_nil_iff] at h
    have hlen : 0 < (l.dropWhile jsIsWs).length := by
      cases hd : l.dropWhile jsIsWs with
      | nil => exact absurd hd hne
      | cons a t => simp [hd]
    have := List.dropWhile_get_zero_not jsIsWs l hlen
    exact this (h _ (List.get_mem _ _ hlen))
  · intro h
    rw [h]
    simp [List.rdropWhile]

theorem trimChars_of_no_ws {l : List Char} (h : ∀ c ∈ l, jsIsWs c = false) :
    trimChars l = l := by
  unfold trimChars
  have h1 : l.dropWhile jsIsWs = l := by
    rw [List.dropWhile_eq_self_iff]
    intro hl hp
    have hf := h _ (List.get_mem _ _ hl)
    rw [hf] at hp
    exact absurd hp (by decide)
  rw [h1, List.rdropWhile_eq_self_iff]
  intro hl hp
  have hf := h _ (List.getLast_mem hl)
  rw [hf] at hp
  exact absurd hp (by decide)

theorem trimString_idem (s : String) :
    trimString (trimString s) = trimString s :=
  congrArg String.mk (trimChars_idem s.data)

theorem trimString_eq_empty_iff (s : String) :
    trimString s = "" ↔ s.data.dropWhile jsIsWs = [] := by
  constructor
  · intro h
    exact (trimChars_eq_nil_iff s.data).mp (congrArg String.data h)
  · intro h
    exact congrArg String.mk ((trimChars_eq_nil_iff s.data).mpr h)

theorem jsIsDigit_not_ws {c : Char} (h : jsIsDigit c = true) :
    jsIsWs c = false := by
  simp only [jsIsDigit, Bool.and_eq_true, decide_eq_true_eq] at h
  simp only [jsIsWs, decide_eq_false_iff_not]
  omega

theorem jsIsDigit_ne_minus {c : Char} (h : jsIsDigit c = true) : c ≠ '-' := by
  intro he
  rw [he] at h
  exact absurd h (by decide)

theorem jsIsDigit_ne_plus {c : Char} (h : jsIsDigit c = true) : c ≠ '+' := by
  intro he
  rw [he] at h
  exact absurd h (by decide)

theorem roundToDouble_small {n : Nat} (h : n < 2 ^ 53) :
    roundToDouble n = some n := by
  unfold roundToDouble
  rw [if_pos h]

theorem jsParseIntDigits_small {l : List Char}
    (h : l.takeWhile jsIsDigit ≠ [])
    (hb : digitsToNat (l.takeWhile jsIsDigit) < 2 ^ 53) :
    jsParseIntDigits false l =
      .finite ((digitsToNat (l.takeWhile jsIsDigit) : Int)) := by
  cases ht : l.takeWhile jsIsDigit with
  | nil => exact absurd ht h
  | cons d ds =>
    rw [ht] at hb
    simp [jsParseIntDigits, ht, roundToDouble_small hb]

/-- On a nonempty string of decimal digits whose value stays below `2^53`,
`Number.parseInt(·, 10)` returns exactly the digits' value. -/
theorem jsParseInt_of_digits {s : String} (hne : s.data ≠ [])
    (hd : ∀ c ∈ s.data, jsIsDigit c = true)
    (hb : digitsToNat s.data < 2 ^ 53) :
    jsParseInt s = .finite ((digitsToNat s.data : Int)) := by
  obtain ⟨c, t, hsd⟩ : ∃ c t, s.data = c :: t := by
    cases h : s.data with
    | nil => exact absurd h hne
    | cons c t => exact ⟨c, t, rfl⟩
  have hcd : jsIsDigit c = true := hd c (hsd ▸ List.mem_cons_self c t)
  have hdrop : s.data.dropWhile jsIsWs = c :: t := by
    rw [hsd, List.dropWhile_cons, jsIsDigit_not_ws hcd]
    simp
  have htake : (c :: t).takeWhile jsIsDigit = c :: t :=
    List.takeWhile_eq_self_iff.mpr fun x hx => hd x (hsd ▸ hx)
  have hne' : (c :: t).takeWhile jsIsDigit ≠ [] := by
    rw [htake]
    simp
  have hb' : digitsToNat ((c :: t).takeWhile jsIsDigit) < 2 ^ 53 := by
    rw [htake, ← hsd]
    exact hb
  unfold jsParseInt
  rw [hdrop]
  show (if c = '-' then jsParseIntDigits true t
    else if c = '+' then jsParseIntDigits false t
    else jsParseIntDigits false (c :: t)) = .finite ((digitsToNat s.data : Int))
  rw [if_neg (jsIsDigit_ne_minus hcd), if_neg (jsIsDigit_ne_plus hcd),
    jsParseIntDigits_small hne' hb', htake, ← hsd]

/-- A nonempty string of decimal digits is unchanged by `trim`. -/
theorem trimString_of_digits {s : String}
    (hd : ∀ c ∈ s.data, jsIsDigit c = true) : trimString s = s := by
  have : trimChars s.data = s.data :=
    trimChars_of_no_ws fun c hc => jsIsDigit_not_ws (hd c hc)
  exact congrArg String.mk this

theorem string_ne_empty_iff_data (s : String) : s ≠ "" ↔ s.data ≠ [] := by
  constructor
  · intro h hd
    exact h (congrArg String.mk hd)
  · intro h he
    exact h (congrArg String.data he)

theorem parseIntJs_none (fb : Int) : Env.parseIntJs none fb = fb := rfl

theorem parseIntJs_blank {s : String} (fb : Int) (ht : trimString s = "") :
    Env.parseIntJs (some s) fb = fb := by
  unfold Env.parseIntJs
  show (if trimString s = "" then fb
    else match jsParseInt s with
    | .finite parsed => if parsed > 0 then parsed else fb
    | _ => fb) = fb
  rw [if_pos ht]

theorem parseIntJs_notFinite {s : String} (fb : Int) (ht : trimString s ≠ "")
    (hp : ∀ n : Int, jsParseInt s ≠ .finite n) :
    Env.parseIntJs (some s) fb = fb := by
  unfold Env.parseIntJs
  show (if trimString s = "" then fb
    else match jsParseInt s with
    | .finite parsed => if parsed > 0 then parsed else fb
    | _ => fb) = fb
  rw [if_neg ht]
  cases hj : jsParseInt s with
  | finite n => exact absurd hj (hp n)
  | nan => rfl
  | posInf => rfl
  | negInf => rfl

theorem parseIntJs_pos {s : String} {n : Int} (fb : Int)
    (ht : trimString s ≠ "") (hp : jsParseInt s = .finite n) (hn : 0 < n) :
    Env.parseIntJs (some s) fb = n := by
  unfold Env.parseIntJs
  show (if trimString s = "" then fb
    else match jsParseInt s with
    | .finite parsed => if parsed > 0 then parsed else fb
    | _ => fb) = n
  rw [if_neg ht, hp]
  show (if n > 0 then n else fb) = n
  rw [if_pos hn]

theorem parseIntJs_nonpos {s : String} {n : Int} (fb : Int)
    (ht : trimString s ≠ "") (hp : jsParseInt s = .finite n) (hn : ¬ 0 < n) :
    Env.parseIntJs (some s) fb = fb := by
  unfold Env.parseIntJs
  show (if trimString s = "" then fb
    else match jsParseInt s with
    | .finite parsed => if parsed > 0 then parsed else fb
    | _ => fb) = fb
  rw [if_neg ht, hp]
  show (if n > 0 then n else fb) = fb
  rw [if_neg hn]

/-- When the whitespace-stripped input begins with a digit and the digit
prefix's value stays below `2^53`, `parseInt` returns exactly the value of
the longest digit prefix. -/
theorem jsParseInt_leading_digits {s : String}
    (h1 : (s.data.dropWhile jsIsWs).takeWhile jsIsDigit ≠ [])
    (hb : digitsToNat ((s.data.dropWhile jsIsWs).takeWhile jsIsDigit) < 2 ^ 53) :
    jsParseInt s =
      .finite ((digitsToNat ((s.data.dropWhile jsIsWs).takeWhile jsIsDigit) : Int)) := by
  cases hl : s.data.dropWhile jsIsWs with
  | nil =>
    rw [hl] at h1
    exact absurd rfl h1
  | cons c t =>
    rw [hl] at h1 hb
    have hcd : jsIsDigit c = true := by
      by_contra hc
      rw [List.takeWhile_cons] at h1
      rw [Bool.not_eq_true] at hc
      rw [hc] at h1
      exact h1 (by simp)
    unfold jsParseInt
    rw [hl]
    show (if c = '-' then jsParseIntDigits true t
      else if c = '+' then jsParseIntDigits false t
      else jsParseIntDigits false (c :: t)) =
      .finite ((digitsToNat ((c :: t).takeWhile jsIsDigit) : Int))
    rw [if_neg (jsIsDigit_ne_minus hcd), if_neg (jsIsDigit_ne_plus hcd),
      jsParseIntDigits_small h1 hb]

theorem trimString_ne_empty_of_leading_digits {s : String}
    (h1 : (s.data.dropWhile jsIsWs).takeWhile jsIsDigit ≠ []) :
    trimString s ≠ "" := by
  rw [Ne, trimString_eq_empty_iff]
  intro h
  rw [h] at h1
  exact h1 rfl

theorem length_pos_decide_eq (v : String) :
    decide (0 < v.length) = decide (v ≠ "") := by
  by_cases h : v = ""
  · subst h
    decide
  · have hd := (string_ne_empty_iff_data v).mp h
    have hlen : 0 < v.length := List.length_pos.mpr hd
    simp [h, hlen]

theorem parseBoolean_none (fb : Bool) : Env.parseBoolean none fb = fb := rfl

theorem parseBoolean_some (s : String) (fb : Bool) :
    Env.parseBoolean (some s) fb = (jsToLower (trimString s) == "true") := rfl

theorem corsOrigin_none {env : EnvState} (h : env.CORS_ORIGIN = none) :
    Env.corsOrigin env = .list ["http://localhost:3000"] := by
  unfold Env.corsOrigin
  rw [h]

theorem corsOrigin_some (raw : String) {env : EnvState}
    (h : env.CORS_ORIGIN = some raw) :
    Env.corsOrigin env =
      (if raw = "" then CorsOrigin.list ["http://localhost:3000"]
      else if trimString raw = "*" then CorsOrigin.wildcard
      else if (((splitComma raw).map trimString).filter
          fun value => value.length > 0).length > 0
        then CorsOrigin.list (((splitComma raw).map trimString).filter
          fun value => value.length > 0)
        else CorsOrigin.list ["http://localhost:3000"]) := by
  unfold Env.corsOrigin
  rw [h]

theorem port_pos_aux (env : EnvState) : 0 < Env.port env := by
  unfold Env.port
  cases h : env.PORT with
  | none => norm_num [parseIntJs_none]
  | some s =>
    by_cases ht : trimString s = ""
    · rw [parseIntJs_blank _ ht]
      norm_num
    · by_cases hfin : ∃ n : Int, jsParseInt s = .finite n
      · obtain ⟨n, hp⟩ := hfin
        by_cases hn : 0 < n
        · rw [parseIntJs_pos _ ht hp hn]
          exact hn
        · rw [parseIntJs_nonpos _ ht hp hn]
          norm_num
      · rw [parseIntJs_notFinite _ ht fun n hn => hfin ⟨n, hn⟩]
        norm_num

theorem corsOrigin_nonempty_aux (env : EnvState) :
    Env.corsOrigin env = .wildcard ∨
      ∃ l, Env.corsOrigin env = .list l ∧ l ≠ [] := by
  cases h : env.CORS_ORIGIN with
  | none => exact Or.inr ⟨_, corsOrigin_none h, by simp⟩
  | some raw =>
    rw [corsOrigin_some raw h]
    by_cases h0 : raw = ""
    · rw [if_pos h0]
      exact Or.inr ⟨_, rfl, by simp⟩
    · rw [if_neg h0]
      by_cases hw : trimString raw = "*"
      · rw [if_pos hw]
        exact Or.inl rfl
      · rw [if_neg hw]
        by_cases hl : (((splitComma raw).map trimString).filter
            fun value => value.length > 0).length > 0
        · rw [if_pos hl]
          refine Or.inr ⟨_, rfl, ?_⟩
          intro he
          rw [he] at hl
          exact absurd hl (by decide)
        · rw [if_neg hl]
          exact Or.inr ⟨_, rfl, by simp⟩

/-- C2: for every acyclic nested value, `Utils.trim` (the sanitizer) equals
the reference depth-first transform taken from the specification's words:
strings are trimmed, arrays are mapped elementwise in order, objects keep
their key set with recursively sanitized values, and every other value is
returned unchanged. -/
theorem trim_eq_sanitizeSpec : ∀ v : Value, Utils.trim v = sanitizeSpec v := by
  intro v
  induction v using Value.inductionOn with
  | hstr s => simp [Utils.trim, sanitizeSpec]
  | hnum n => simp [Utils.trim, sanitizeSpec]
  | hbool b => simp [Utils.trim, sanitizeSpec]
  | hnull => simp [Utils.trim, sanitizeSpec]
  | hundefined => simp [Utils.trim, sanitizeSpec]
  | harr xs ih =>
    simp only [Utils.trim, sanitizeSpec, trimElems_eq_map, sanitizeSpecElems_eq_map]
    exact congrArg Value.arr (List.map_congr_left ih)
  | hobj fs ih =>
    simp only [Utils.trim, sanitizeSpec, trimFields_eq_map, sanitizeSpecFields_eq_map]
    exact congrArg Value.obj
      (List.map_congr_left fun kv hkv => by rw [ih kv hkv])

/-- C3: the sanitizer is idempotent: applying `Utils.trim` twice gives the
same result as applying it once, for every acyclic nested value. -/
theorem trim_idempotent : ∀ v : Value, Utils.trim (Utils.trim v) = Utils.trim v := by
  intro v
  induction v using Value.inductionOn with
  | hstr s => simp [Utils.trim, trimString_idem]
  | hnum n => simp [Utils.trim]
  | hbool b => simp [Utils.trim]
  | hnull => simp [Utils.trim]
  | hundefined => simp [Utils.trim]
  | harr xs ih =>
    simp only [Utils.trim, trimElems_eq_map, List.map_map]
    exact congrArg Value.arr (List.map_congr_left fun x hx => ih x hx)
  | hobj fs ih =>
    simp only [Utils.trim, trimFields_eq_map, List.map_map]
    exact congrArg Value.obj
      (List.map_congr_left fun kv hkv => by
        simp only [Function.comp_apply]
        rw [ih kv hkv])

/-- C4: the sanitizer never changes the shape of its input: `shapeOf`
(which records container types, array lengths, object key sets in order,
and all non-string leaf values, erasing only string contents) is invariant
under `Utils.trim`, so only leaf strings can differ from the input. -/
theorem trim_preserves_shape : ∀ v : Value, shapeOf (Utils.trim v) = shapeOf v := by
  intro v
  induction v using Value.inductionOn with
  | hstr s => simp [Utils.trim, shapeOf]
  | hnum n => simp [Utils.trim, shapeOf]
  | hbool b => simp [Utils.trim, shapeOf]
  | hnull => simp [Utils.trim, shapeOf]
  | hundefined => simp [Utils.trim, shapeOf]
  | harr xs ih =>
    simp only [Utils.trim, shapeOf, trimElems_eq_map, shapeOfElems_eq_map,
      List.map_map]
    exact congrArg Shape.arrNode (List.map_congr_left fun x hx => ih x hx)
  | hobj fs ih =>
    simp only [Utils.trim, shapeOf, trimFields_eq_map, shapeOfFields_eq_map,
      List.map_map]
    exact congrArg Shape.objNode
      (List.map_congr_left fun kv hkv => by
        simp only [Function.comp_apply]
        rw [ih kv hkv])

/-- C1 (counterexample): the claim says the non-integer string `"12.5"`
makes `Env.port` return the default 5001; in fact `Number.parseInt`
extracts the leading digit prefix and `Env.port` returns 12. -/
theorem port_nonInteger_counterexample :
    Env.port ⟨none, none, none, some "12.5"⟩ = 12 ∧
      Env.port ⟨none, none, none, some "12.5"⟩ ≠ 5001 := by
  constructor
  · decide
  · decide

/-- C1 (amended): `Env.port` returns the default 5001 for every set port
string from which `Number.parseInt(·, 10)` extracts no finite strictly
positive value — strings with no decimal-digit prefix after optional
whitespace and sign (such as `"abc"`), strings whose extracted prefix is
zero or negative, and strings whose prefix overflows the double range to
`Infinity` (which `Number.isFinite` rejects). -/
theorem port_default_of_no_positive_parse :
    ∀ (env : EnvState) (s : String), env.PORT = some s →
      (∀ n : Int, jsParseInt s = .finite n → n ≤ 0) →
      Env.port env = 5001 := by
  intro env s h1 h2
  unfold Env.port
  rw [h1]
  by_cases ht : trimString s = ""
  · exact parseIntJs_blank _ ht
  · by_cases hfin : ∃ n : Int, jsParseInt s = .finite n
    · obtain ⟨n, hp⟩ := hfin
      refine parseIntJs_nonpos _ ht hp ?_
      have := h2 n hp
      omega
    · exact parseIntJs_notFinite _ ht fun n hn => hfin ⟨n, hn⟩

/-- Witness for C1 (amended) at the concrete input `"abc"`. -/
theorem port_default_of_no_positive_parse_witness :
    Env.port ⟨none, none, none, some "abc"⟩ = 5001 := by
  apply port_default_of_no_positive_parse _ "abc" rfl
  intro n hn
  rw [show jsParseInt "abc" = .nan from by decide] at hn
  exact JsNumber.noConfusion hn

set_option maxRecDepth 10000 in
/-- C8 (counterexample): the claim promises every positive digit string's
exact value with no upper bound, but `Number.parseInt` produces a double:
at `"12345678901234567890"` (≥ 2^53) the program returns the rounded value
12345678901234567168, not the string's value. -/
theorem port_rounded_counterexample :
    Env.port ⟨none, none, none, some "12345678901234567890"⟩ =
        12345678901234567168 ∧
      Env.port ⟨none, none, none, some "12345678901234567890"⟩ ≠
        12345678901234567890 := by
  constructor
  · decide
  · decide

/-- C8 (amended): `Env.port` is always strictly positive; it returns the
default 5001 when the variable is unset, blank (whitespace-only), or parses
to a zero, negative, or non-finite value, and returns `n` exactly for every
decimal digit string of value `0 < n < 2^53`.  (Digit strings of `2^53` or
more are rounded to double precision, and those past the double range
overflow to `Infinity` and fall back to 5001, so exactness stops at
`2^53`.) -/
theorem port_invariant :
    (∀ env : EnvState, 0 < Env.port env) ∧
    (∀ env : EnvState, env.PORT = none → Env.port env = 5001) ∧
    (∀ (env : EnvState) (s : String), env.PORT = some s →
      trimString s = "" → Env.port env = 5001) ∧
    (∀ (env : EnvState) (s : String) (n : Int), env.PORT = some s →
      jsParseInt s = .finite n → n ≤ 0 → Env.port env = 5001) ∧
    (∀ (env : EnvState) (s : String), env.PORT = some s →
      s.data ≠ [] → (∀ c ∈ s.data, jsIsDigit c = true) →
      0 < digitsToNat s.data → digitsToNat s.data < 2 ^ 53 →
      Env.port env = (digitsToNat s.data : Int)) := by
  refine ⟨port_pos_aux, ?_, ?_, ?_, ?_⟩
  · intro env h
    unfold Env.port
    rw [h]
    exact parseIntJs_none _
  · intro env s h1 ht
    unfold Env.port
    rw [h1]
    exact parseIntJs_blank _ ht
  · intro env s n h1 hp hn
    unfold Env.port
    rw [h1]
    by_cases ht : trimString s = ""
    · exact parseIntJs_blank _ ht
    · exact parseIntJs_nonpos _ ht hp (by omega)
  · intro env s h1 hne hdig hpos hb
    unfold Env.port
    rw [h1]
    have ht : trimString s ≠ "" := by
      rw [trimString_of_digits hdig]
      exact (string_ne_empty_iff_data s).mpr hne
    exact parseIntJs_pos _ ht (jsParseInt_of_digits hne hdig hb)
      (by exact_mod_cast hpos)

/-- Witness for C8 at the concrete digit string `"8080"`. -/
theorem port_invariant_witness :
    Env.port ⟨none, none, none, some "8080"⟩ = 8080 := by
  have h := port_invariant.2.2.2.2 ⟨none, none, none, some "8080"⟩ "8080"
    rfl (by decide) (by decide) (by decide) (by decide)
  exact h.trans (by decide)

set_option maxRecDepth 10000 in
/-- C10 (counterexample): the claim promises the digit prefix's value
rather than the default for every positive prefix, but at a 310-digit
prefix of value `10^309` (`bigPortInput`) `Number.parseInt` overflows to
`Infinity`, `Number.isFinite` fails, and the program returns exactly the
default 5001. -/
theorem port_overflow_counterexample :
    (bigPortInput.data.dropWhile jsIsWs).takeWhile jsIsDigit ≠ [] ∧
    0 < digitsToNat ((bigPortInput.data.dropWhile jsIsWs).takeWhile jsIsDigit) ∧
    Env.port ⟨none, none, none, some bigPortInput⟩ = 5001 ∧
    (digitsToNat ((bigPortInput.data.dropWhile jsIsWs).takeWhile jsIsDigit) : Int) ≠
      5001 := by
  refine ⟨by decide, by decide, by decide, by decide⟩

/-- C10 (amended): when the trimmed port string begins with one or more
decimal digits (followed by anything) and the digit prefix's value is
positive and below `2^53`, `Env.port` returns exactly that value rather
than the default — `Number.parseInt` accepts numeric prefixes.  (Prefixes
of `2^53` or more are rounded to double precision, and prefixes past the
double range overflow to `Infinity` and fall back to the default 5001.) -/
theorem port_leading_digits_value :
    ∀ (env : EnvState) (s : String), env.PORT = some s →
      (s.data.dropWhile jsIsWs).takeWhile jsIsDigit ≠ [] →
      0 < digitsToNat ((s.data.dropWhile jsIsWs).takeWhile jsIsDigit) →
      digitsToNat ((s.data.dropWhile jsIsWs).takeWhile jsIsDigit) < 2 ^ 53 →
      Env.port env =
        (digitsToNat ((s.data.dropWhile jsIsWs).takeWhile jsIsDigit) : Int) := by
  intro env s h1 h2 h3 hb
  unfold Env.port
  rw [h1]
  exact parseIntJs_pos _ (trimString_ne_empty_of_leading_digits h2)
    (jsParseInt_leading_digits h2 hb) (by exact_mod_cast h3)

/-- Witness for C10 at the concrete input `"8080abc"`. -/
theorem port_leading_digits_value_witness :
    Env.port ⟨none, none, none, some "8080abc"⟩ = 8080 := by
  have h := port_leading_digits_value ⟨none, none, none, some "8080abc"⟩
    "8080abc" rfl (by decide) (by decide) (by decide)
  exact h.trans (by decide)

/-- C5: for every set origins variable whose trimmed value is not `"*"`,
`Env.corsOrigin` returns the list obtained by splitting the raw value on
commas, trimming each segment and discarding empty segments (order and
duplicates preserved), falling back to the default
`["http://localhost:3000"]` when that list is empty. -/
theorem corsOrigin_split_spec :
    ∀ (env : EnvState) (s : String), env.CORS_ORIGIN = some s →
      trimString s ≠ "*" →
      Env.corsOrigin env =
        (if corsSpecItems s = [] then CorsOrigin.list ["http://localhost:3000"]
        else CorsOrigin.list (corsSpecItems s)) := by
  intro env s h1 h2
  rw [corsOrigin_some s h1]
  by_cases h0 : s = ""
  · subst h0
    rw [if_pos rfl]
    rw [show corsSpecItems "" = [] from by decide, if_pos rfl]
  · rw [if_neg h0, if_neg h2]
    have hfc : (((splitComma s).map trimString).filter
        fun value => value.length > 0) = corsSpecItems s := by
      unfold corsSpecItems
      exact List.filter_congr fun v hv => length_pos_decide_eq v
    rw [hfc]
    by_cases hemp : corsSpecItems s = []
    · rw [hemp, if_pos rfl]
      simp
    · rw [if_neg hemp, if_pos (List.length_pos.mpr hemp)]

/-- Witness for C5 at the specification's example input
`" http://a.com , , http://b.com "`. -/
theorem corsOrigin_split_spec_witness :
    Env.corsOrigin ⟨none, none, some " http://a.com , , http://b.com ", none⟩ =
      CorsOrigin.list ["http://a.com", "http://b.com"] := by
  have h := corsOrigin_split_spec
    ⟨none, none, some " http://a.com , , http://b.com ", none⟩
    " http://a.com , , http://b.com " rfl (by decide)
  exact h.trans (by decide)

/-- C6: `Env.corsOrigin` returns the wildcard marker if and only if the
origins variable is set and its trimmed value is exactly `"*"`; when the
variable is unset it returns the default list `["http://localhost:3000"]`,
not the wildcard. -/
theorem corsOrigin_wildcard_iff :
    ∀ env : EnvState,
      (Env.corsOrigin env = .wildcard ↔
        ∃ s, env.CORS_ORIGIN = some s ∧ trimString s = "*") ∧
      (env.CORS_ORIGIN = none →
        Env.corsOrigin env = .list ["http://localhost:3000"]) := by
  intro env
  cases h : env.CORS_ORIGIN with
  | none =>
    refine ⟨⟨fun hw => ?_, fun hex => ?_⟩, fun _ => corsOrigin_none h⟩
    · rw [corsOrigin_none h] at hw
      exact CorsOrigin.noConfusion hw
    · obtain ⟨s, hs, _⟩ := hex
      exact Option.noConfusion hs
  | some raw =>
    refine ⟨?_, fun hn => Option.noConfusion hn⟩
    rw [corsOrigin_some raw h]
    by_cases h0 : raw = ""
    · subst h0
      rw [if_pos rfl]
      constructor
      · intro hw
        exact CorsOrigin.noConfusion hw
      · rintro ⟨s, hs, htr⟩
        cases Option.some.inj hs
        exact absurd htr (by decide)
    · rw [if_neg h0]
      by_cases hw : trimString raw = "*"
      · rw [if_pos hw]
        exact ⟨fun _ => ⟨raw, rfl, hw⟩, fun _ => rfl⟩
      · rw [if_neg hw]
        constructor
        · intro heq
          split at heq <;> exact CorsOrigin.noConfusion heq
        · rintro ⟨s, hs, htr⟩
          cases Option.some.inj hs
          exact absurd htr hw

/-- Witness for C6: on an environment with the origins variable unset, the
default single-origin list is returned. -/
theorem corsOrigin_wildcard_iff_witness :
    Env.corsOrigin ⟨none, none, none, none⟩ = .list ["http://localhost:3000"] :=
  (corsOrigin_wildcard_iff ⟨none, none, none, none⟩).2 rfl

/-- C7: `Env.skipAuth` is true if and only if the auth-bypass variable is
set and, after trimming surrounding whitespace, equals `"true"` under
case-insensitive comparison; every other value, including unset, yields
false. -/
theorem skipAuth_iff_true_literal :
    ∀ env : EnvState,
      Env.skipAuth env = true ↔
        ∃ s, env.SKIP_AUTH = some s ∧
          caseInsensitiveEq (trimString s) "true" := by
  intro env
  unfold Env.skipAuth
  cases h : env.SKIP_AUTH with
  | none =>
    rw [parseBoolean_none]
    constructor
    · intro hf
      exact Bool.noConfusion hf
    · rintro ⟨s, hs, _⟩
      exact Option.noConfusion hs
  | some s =>
    rw [parseBoolean_some, beq_iff_eq]
    constructor
    · intro he
      refine ⟨s, rfl, ?_⟩
      show jsToLower (trimString s) = jsToLower "true"
      rw [he]
      decide
    · rintro ⟨s', hs', hci⟩
      cases Option.some.inj hs'
      have hci' : jsToLower (trimString s) = jsToLower "true" := hci
      rw [hci']
      decide

/-- C9: every operation of both components is total and never signals an
error: each accessor returns a value of its documented form for every
environment state (`nodeEnv` the raw value, `skipAuth` a boolean, `port` a
positive integer, `corsOrigin` the wildcard or a non-empty list), and the
sanitizer returns a value for every acyclic input. -/
theorem accessors_and_sanitizer_total :
    ∀ env : EnvState,
      Env.nodeEnv env = env.NODE_ENV ∧
      (Env.skipAuth env = true ∨ Env.skipAuth env = false) ∧
      0 < Env.port env ∧
      (Env.corsOrigin env = .wildcard ∨
        ∃ l, Env.corsOrigin env = .list l ∧ l ≠ []) ∧
      (∀ v : Value, ∃ w, Utils.trim v = w) := by
  intro env
  refine ⟨rfl, ?_, port_pos_aux env, corsOrigin_nonempty_aux env,
    fun v => ⟨Utils.trim v, rfl⟩⟩
  cases Env.skipAuth env
  · exact Or.inr rfl
  · exact Or.inl rfl
